import Mathlib

set_option maxHeartbeats 1000000
set_option maxRecDepth 4000

/-!
Verification of the chunkmaker text-segmentation engine
(`chunkmaker/chunking.py` and `chunkmaker/types.py`).

Strings are modelled as `List Char` (Python strings are sequences of code
points, indexed by code point, exactly as `List Char` is).  Spans are pairs
of `Nat` character offsets.  The two regular expressions used by the source
are embedded as explicit character scanners with the exact semantics of
the Python patterns on the inputs in question:

* the paragraph separator pattern (a newline, then greedily as much
  whitespace as possible while still ending in a newline) matches, at a
  position holding a newline, up to just past the last newline of the
  maximal whitespace run starting there, provided that run holds a second
  newline;
* the sentence-end pattern matches a `.`, `!` or `?` (or one of the Korean
  terminators followed by a dot) when followed by whitespace or end of
  text, recording the offset just past the match.

Scanners that advance by more than one character per step take an explicit
fuel argument (always instantiated with the length of the list, which is an
upper bound on the number of steps) so that every definition is structurally
recursive and hence evaluable by the kernel.
-/

namespace Chunking

/-- Code points of the characters matched by Python's whitespace class
(the class used both by the regex escape for whitespace and by
`str.strip`). -/
def pySpaceCodes : List Nat :=
  [0x09, 0x0a, 0x0b, 0x0c, 0x0d, 0x1c, 0x1d, 0x1e, 0x1f, 0x20, 0x85, 0xa0,
   0x1680, 0x2000, 0x2001, 0x2002, 0x2003, 0x2004, 0x2005, 0x2006, 0x2007,
   0x2008, 0x2009, 0x200a, 0x2028, 0x2029, 0x202f, 0x205f, 0x3000]

/-- Whether a character is Python whitespace. -/
def isPySpace (c : Char) : Bool := pySpaceCodes.contains c.toNat

/-- Python `text[a:b]` on our character-list model of strings. -/
def sliceL (l : List Char) (a b : Nat) : List Char := (l.drop a).take (b - a)

/-- Python `str.replace old new`, scanning left to right and never
rescanning replaced text.  `fuel` bounds the number of scanning steps; each
step consumes at least one character, so `l.length` is always enough. -/
def replaceGo (old new : List Char) : Nat → List Char → List Char
  | 0, l => l
  | _ + 1, [] => []
  | fuel + 1, c :: rest =>
    if old.isPrefixOf (c :: rest) then
      new ++ replaceGo old new fuel (rest.drop (old.length - 1))
    else c :: replaceGo old new fuel rest

/-- Python `text.replace(old, new)` (for non-empty `old`, the only way the
source uses it). -/
def replaceList (old new l : List Char) : List Char := replaceGo old new l.length l

/-- One pass collapsing every maximal run of three or more newlines to
exactly two, as Python's substitution of the three-or-more-newlines pattern
by two newlines does.  Runs of one or two newlines are left unchanged. -/
def collapseNlGo : Nat → List Char → List Char
  | 0, l => l
  | _ + 1, [] => []
  | fuel + 1, c :: rest =>
    if c = '\n' then
      let run := 1 + (rest.takeWhile (fun x => x = '\n')).length
      (if 3 ≤ run then ['\n', '\n'] else List.replicate run '\n') ++
        collapseNlGo fuel (rest.dropWhile (fun x => x = '\n'))
    else c :: collapseNlGo fuel rest

/-- Python `re.sub` of three-or-more newlines by exactly two. -/
def collapseNl (l : List Char) : List Char := collapseNlGo l.length l

/-- Python `str.strip()`: remove leading and trailing whitespace. -/
def stripWs (l : List Char) : List Char :=
  ((l.dropWhile (fun c => isPySpace c)).reverse.dropWhile (fun c => isPySpace c)).reverse

/-- Embedding of `normalize_text` from `chunking.py`: strip leading
byte-order marks, turn the literal two-character backslash escapes and the
real carriage-return line endings into newlines, replace tabs by spaces,
collapse runs of three or more newlines to two, and strip. -/
def normalize_text (t : List Char) : List Char :=
  let t1 := t.dropWhile (fun c => c = '\uFEFF')
  let t2 := replaceList ['\\', 'r', '\\', 'n'] ['\n'] t1
  let t3 := replaceList ['\\', 'n'] ['\n'] t2
  let t4 := replaceList ['\\', 'r'] ['\n'] t3
  let t5 := replaceList ['\r', '\n'] ['\n'] t4
  let t6 := replaceList ['\r'] ['\n'] t5
  let t7 := replaceList ['\t'] [' '] t6
  stripWs (collapseNl t7)

/-- Helper for the paragraph-separator scanner: given the characters
following a newline, return `some j` when the maximal whitespace run at the
head of the list holds at least one newline, where `j` is the offset just
past the last newline of that run; `none` otherwise.  This is exactly how
far the greedy separator pattern extends past its first newline. -/
def lastNlInWs : List Char → Option Nat
  | [] => none
  | c :: rest =>
    if isPySpace c then
      match lastNlInWs rest with
      | some j => some (j + 1)
      | none => if c = '\n' then some 1 else none
    else none

/-- Scanner for every (non-overlapping, leftmost) match of the
paragraph-separator pattern, with match spans in absolute positions.
Mirrors the iterator of matches the source walks over. -/
def sepScanGo : Nat → List Char → Nat → List (Nat × Nat)
  | 0, _, _ => []
  | _ + 1, [], _ => []
  | fuel + 1, c :: rest, i =>
    if c = '\n' then
      match lastNlInWs rest with
      | some j => (i, i + 1 + j) :: sepScanGo fuel (rest.drop j) (i + 1 + j)
      | none => sepScanGo fuel rest (i + 1)
    else sepScanGo fuel rest (i + 1)

/-- All paragraph-separator matches of a text. -/
def sepScan (t : List Char) : List (Nat × Nat) := sepScanGo t.length t 0

/-- The loop body of `paragraph_block_spans`: emit the (non-empty) stretch
before each separator match, then the (non-empty) tail after the last
one. -/
def blocksFromSeps (n : Nat) : Nat → List (Nat × Nat) → List (Nat × Nat)
  | start, [] => if start < n then [(start, n)] else []
  | start, (ms, me) :: seps =>
    (if start < ms then [(start, ms)] else []) ++ blocksFromSeps n me seps

/-- Embedding of `paragraph_block_spans` from `chunking.py`. -/
def paragraph_block_spans (t : List Char) : List (Nat × Nat) :=
  if t = [] then [] else blocksFromSeps t.length 0 (sepScan t)

/-- The lookahead of the sentence-end pattern: next character is whitespace,
or end of text. -/
def lookaheadWs : List Char → Bool
  | [] => true
  | c :: _ => isPySpace c

/-- Scanner for the sentence-end pattern: a `.`, `!` or `?`, or a Korean
terminal syllable followed by a dot, followed (without being consumed) by
whitespace or end of text.  Records the offset just past each match, as the
source's list of match ends does. -/
def sentScanGo : Nat → List Char → Nat → List Nat
  | 0, _, _ => []
  | _ + 1, [], _ => []
  | fuel + 1, c :: rest, i =>
    if (c = '.' ∨ c = '!' ∨ c = '?') ∧ lookaheadWs rest = true then
      (i + 1) :: sentScanGo fuel rest (i + 1)
    else
      match rest with
      | [] => []
      | c2 :: rest2 =>
        if (c = '다' ∨ c = '요' ∨ c = '함') ∧ c2 = '.' ∧ lookaheadWs rest2 = true then
          (i + 2) :: sentScanGo fuel rest2 (i + 2)
        else sentScanGo fuel rest (i + 1)

/-- Embedding of `sentence_end_positions` from `chunking.py`. -/
def sentence_end_positions (t : List Char) : List Nat := sentScanGo t.length t 0

/-- The fixed-width slicing loop of `split_block_into_spans`: spans
`(bs + i, bs + min (i + maxc) len)` for `i` ranging from its start value to
`len` in steps of `maxc`.  The fuel is instantiated with `len`, which
bounds the number of iterations whenever `1 ≤ maxc`. -/
def fixedWidthGo (bs maxc : Nat) : Nat → Nat → Nat → List (Nat × Nat)
  | 0, _, _ => []
  | fuel + 1, i, len =>
    if i < len ∧ 0 < maxc then
      (bs + i, bs + min (i + maxc) len) :: fixedWidthGo bs maxc fuel (i + maxc) len
    else []

/-- Python `for i in range(i0, len, maxc)` emitting fixed-width spans. -/
def fixedWidth (bs i0 len maxc : Nat) : List (Nat × Nat) :=
  fixedWidthGo bs maxc len i0 len

/-- The greedy sentence-accumulation loop of `split_block_into_spans`.
State: spans emitted so far, the current window start `cs` and the last
accepted sentence end `le`.  Returns the emitted spans together with the
final `cs` and `le`. -/
def splitLoop (bs maxc len : Nat) : List Nat → Nat → Nat → (List (Nat × Nat)) × Nat × Nat
  | [], cs, le => ([], cs, le)
  | e :: ends, cs, le =>
    if e - cs ≤ maxc then splitLoop bs maxc len ends cs e
    else
      let step : (List (Nat × Nat)) × Nat :=
        if le = cs then
          let he := min (cs + maxc) len
          ([(bs + cs, bs + he)], he)
        else ([(bs + cs, bs + le)], le)
      let cs1 := step.2
      let le1 := if e - cs1 ≤ maxc then e else cs1
      let res := splitLoop bs maxc len ends cs1 le1
      (step.1 ++ res.1, res.2)

/-- Embedding of `split_block_into_spans` from `chunking.py`. -/
def split_block_into_spans (bs : Nat) (bt : List Char) (maxc : Nat) : List (Nat × Nat) :=
  if bt.length ≤ maxc then [(bs, bs + bt.length)]
  else
    let ends := sentence_end_positions bt
    if ends = [] then fixedWidth bs 0 bt.length maxc
    else
      let r := splitLoop bs maxc bt.length ends 0 0
      let cs := r.2.1
      let le := r.2.2
      r.1 ++
        (if cs < bt.length then
          (if cs < le then
            (bs + cs, bs + le) ::
              (if le < bt.length then fixedWidth bs le bt.length maxc else [])
          else fixedWidth bs cs bt.length maxc)
        else [])

/-- The block-packing loop of `build_base_spans`, with the pending open
span made an explicit `Option` accumulator: extend the pending span over
the next block while the combined width fits, otherwise flush it; a block
that alone exceeds the budget goes to the sentence splitter and leaves no
pending span. -/
def bbsLoop (t : List Char) (maxc : Nat) : List (Nat × Nat) → Option (Nat × Nat) → List (Nat × Nat)
  | [], none => []
  | [], some p => [p]
  | (bS, bE) :: blocks, none =>
    if bE - bS ≤ maxc then bbsLoop t maxc blocks (some (bS, bE))
    else split_block_into_spans bS (sliceL t bS bE) maxc ++ bbsLoop t maxc blocks none
  | (bS, bE) :: blocks, some (cs, ce) =>
    if bE - cs ≤ maxc then bbsLoop t maxc blocks (some (cs, bE))
    else
      (cs, ce) ::
        (if bE - bS ≤ maxc then bbsLoop t maxc blocks (some (bS, bE))
         else split_block_into_spans bS (sliceL t bS bE) maxc ++ bbsLoop t maxc blocks none)

/-- Embedding of `build_base_spans` from `chunking.py`. -/
def build_base_spans (t : List Char) (maxc : Nat) : List (Nat × Nat) :=
  bbsLoop t maxc (paragraph_block_spans t) none

/-- The walk of `apply_overlap` over the spans after the first, carrying
the previous span's (original) end. -/
def overlapLoop (k : Nat) : Nat → List (Nat × Nat) → List (Nat × Nat)
  | _, [] => []
  | pe, (s, e) :: rest => (min (pe - k) s, e) :: overlapLoop k e rest

/-- Embedding of `apply_overlap` from `chunking.py`.  On naturals,
truncated subtraction makes `pe - k` exactly the clamped overlap start of
the source. -/
def apply_overlap (spans : List (Nat × Nat)) (k : Nat) : List (Nat × Nat) :=
  if spans = [] ∨ k = 0 then spans
  else
    match spans with
    | [] => []
    | (s, e) :: rest => (s, e) :: overlapLoop k e rest

/-- Embedding of the `MeetingRecord` dataclass from `types.py` (the
optional source file field plays no role in chunking and is omitted). -/
structure MeetingRecord where
  meeting_key : List Char
  date_ymd : List Char
  meeting_name : List Char
  row_index : Nat
  transcript : List Char
deriving DecidableEq

/-- Embedding of the `ChunkRecord` dataclass from `types.py`. -/
structure ChunkRecord where
  meeting_key : List Char
  date_ymd : List Char
  meeting_name : List Char
  chunk_index : Nat
  chunk_id : List Char
  char_start : Nat
  char_end : Nat
  text : List Char
deriving DecidableEq

/-- UTF-8 encoding of a list of code points (as `encode` on a Python
string produces). -/
def utf8Bytes : List Char → List Nat
  | [] => []
  | c :: rest =>
    let n := c.toNat
    (if n < 128 then [n]
     else if n < 2048 then [192 + n / 64, 128 + n % 64]
     else if n < 65536 then [224 + n / 4096, 128 + n / 64 % 64, 128 + n % 64]
     else [240 + n / 262144, 128 + n / 4096 % 64, 128 + n / 64 % 64, 128 + n % 64]) ++
      utf8Bytes rest

/-- Big-endian eight-byte encoding of a natural number. -/
def be64 (n : Nat) : List Nat :=
  [n / 2 ^ 56 % 256, n / 2 ^ 48 % 256, n / 2 ^ 40 % 256, n / 2 ^ 32 % 256,
   n / 2 ^ 24 % 256, n / 2 ^ 16 % 256, n / 2 ^ 8 % 256, n % 256]

/-- SHA-1 message padding: a `0x80` byte, zeros up to 56 modulo 64, then
the bit length as eight big-endian bytes. -/
def sha1Pad (msg : List Nat) : List Nat :=
  let zeros := (120 - (msg.length + 1) % 64) % 64
  msg ++ 128 :: (List.replicate zeros 0 ++ be64 (msg.length * 8))

/-- Big-endian packing of bytes into 32-bit words. -/
def bytesToWords : List Nat → List Nat
  | a :: b :: c :: d :: rest => (((a * 256 + b) * 256 + c) * 256 + d) :: bytesToWords rest
  | _ => []

/-- Left rotation of a 32-bit word, on naturals. -/
def rotl (k x : Nat) : Nat := ((x <<< k) ||| (x >>> (32 - k))) % 2 ^ 32

/-- The SHA-1 round function selector. -/
def sha1F (i b c d : Nat) : Nat :=
  if i < 20 then (b &&& c) ||| (((2 ^ 32 - 1) ^^^ b) &&& d)
  else if i < 40 then b ^^^ c ^^^ d
  else if i < 60 then (b &&& c) ||| (b &&& d) ||| (c &&& d)
  else b ^^^ c ^^^ d

/-- The SHA-1 round constants. -/
def sha1K (i : Nat) : Nat :=
  if i < 20 then 0x5A827999 else if i < 40 then 0x6ED9EBA1
  else if i < 60 then 0x8F1BBCDC else 0xCA62C1D6

/-- The five-word SHA-1 state. -/
abbrev Sha1State := Nat × Nat × Nat × Nat × Nat

/-- Message-schedule expansion of a 16-word block to 80 words. -/
def sha1ExtendGo : Nat → List Nat → List Nat
  | 0, w => w
  | fuel + 1, w =>
    if 80 ≤ w.length then w
    else
      let n := w.length
      let x := rotl 1 (w.getD (n - 3) 0 ^^^ w.getD (n - 8) 0 ^^^ w.getD (n - 14) 0 ^^^
        w.getD (n - 16) 0)
      sha1ExtendGo fuel (w ++ [x])

/-- One SHA-1 round. -/
def sha1Round (w : List Nat) (st : Sha1State) (i : Nat) : Sha1State :=
  let a := st.1
  let b := st.2.1
  let c := st.2.2.1
  let d := st.2.2.2.1
  let e := st.2.2.2.2
  let temp := (rotl 5 a + sha1F i b c d + e + sha1K i + w.getD i 0) % 2 ^ 32
  (temp, a, rotl 30 b, c, d)

/-- Compression of one 512-bit block into the running state. -/
def sha1Compress (h : Sha1State) (block : List Nat) : Sha1State :=
  let w := sha1ExtendGo 64 block
  let r := (List.range 80).foldl (sha1Round w) h
  ((h.1 + r.1) % 2 ^ 32, (h.2.1 + r.2.1) % 2 ^ 32, (h.2.2.1 + r.2.2.1) % 2 ^ 32,
   (h.2.2.2.1 + r.2.2.2.1) % 2 ^ 32, (h.2.2.2.2 + r.2.2.2.2) % 2 ^ 32)

/-- Folding the compression function over all 16-word blocks. -/
def sha1BlocksGo : Nat → List Nat → Sha1State → Sha1State
  | 0, _, h => h
  | fuel + 1, ws, h =>
    match ws with
    | [] => h
    | _ => sha1BlocksGo fuel (ws.drop 16) (sha1Compress h (ws.take 16))

/-- The SHA-1 digest of a byte list, as the five-word final state. -/
def sha1Words (msg : List Nat) : Sha1State :=
  let ws := bytesToWords (sha1Pad msg)
  sha1BlocksGo ws.length ws (0x67452301, 0xEFCDAB89, 0x98BADCFE, 0x10325476, 0xC3D2E1F0)

/-- Lower-case hexadecimal digit for a value below 16. -/
def hexDigitChar (n : Nat) : Char := if n < 10 then Char.ofNat (48 + n) else Char.ofNat (87 + n)

/-- Eight-digit lower-case hexadecimal rendering of one 32-bit word. -/
def wordHex (w : Nat) : List Char :=
  [hexDigitChar (w / 16 ^ 7 % 16), hexDigitChar (w / 16 ^ 6 % 16), hexDigitChar (w / 16 ^ 5 % 16),
   hexDigitChar (w / 16 ^ 4 % 16), hexDigitChar (w / 16 ^ 3 % 16), hexDigitChar (w / 16 ^ 2 % 16),
   hexDigitChar (w / 16 % 16), hexDigitChar (w % 16)]

/-- The 40-character hexadecimal SHA-1 digest of a byte list, as Python's
hex digest of the SHA-1 hash renders it. -/
def sha1Hex (msg : List Nat) : List Char :=
  let h := sha1Words msg
  wordHex h.1 ++ wordHex h.2.1 ++ wordHex h.2.2.1 ++ wordHex h.2.2.2.1 ++ wordHex h.2.2.2.2

/-- Embedding of `stable_chunk_id` from `chunking.py`: the hex SHA-1 digest
of the UTF-8 bytes of the key, the decimal index and the slice joined by
vertical bars. -/
def stable_chunk_id (meeting_key : List Char) (chunk_index : Nat) (text_slice : List Char) :
    List Char :=
  sha1Hex (utf8Bytes (meeting_key ++ '|' :: (Nat.repr chunk_index).data ++ '|' :: text_slice))

/-- Embedding of `chunk_text_from_normalized` from `chunking.py`. -/
def chunk_text_from_normalized (r : MeetingRecord) (normalized : List Char) (maxc k : Nat) :
    List ChunkRecord :=
  if normalized = [] then []
  else
    let spans := apply_overlap (build_base_spans normalized maxc) k
    spans.enum.map (fun p =>
      let slc := sliceL normalized p.2.1 p.2.2
      { meeting_key := r.meeting_key, date_ymd := r.date_ymd, meeting_name := r.meeting_name,
        chunk_index := p.1, chunk_id := stable_chunk_id r.meeting_key p.1 slc,
        char_start := p.2.1, char_end := p.2.2, text := slc })

/-- Embedding of `chunk_text` from `chunking.py`. -/
def chunk_text (r : MeetingRecord) (maxc k : Nat) : List ChunkRecord :=
  chunk_text_from_normalized r (normalize_text r.transcript) maxc k

/-! ### Sanity checks of the hash implementation against published SHA-1 values -/

/-- The SHA-1 implementation reproduces the published digest of the string
with the first three lowercase letters. -/
theorem sha1Hex_test_vector_abc :
    String.mk (sha1Hex (utf8Bytes ['a', 'b', 'c'])) =
      "a9993e364706816aba3e25717850c26c9cd0d89d" := by decide

/-- The SHA-1 implementation reproduces the published digest of the empty
message. -/
theorem sha1Hex_test_vector_empty :
    String.mk (sha1Hex (utf8Bytes [])) = "da39a3ee5e6b4b0d3255bfef95601890afd80709" := by decide

/-! ### C5: determinism and idempotence of chunking -/

/-- C5.  Two invocations of the chunker with identical inputs produce
identical results: the same span lists, the same chunk identifiers, and in
fact identical record lists.  The embedding is a pure function, so the two
runs coincide definitionally. -/
theorem chunk_text_deterministic (r : MeetingRecord) (maxc k : Nat) :
    (chunk_text r maxc k).map (fun c => (c.char_start, c.char_end)) =
      (chunk_text r maxc k).map (fun c => (c.char_start, c.char_end)) ∧
    (chunk_text r maxc k).map (fun c => c.chunk_id) =
      (chunk_text r maxc k).map (fun c => c.chunk_id) ∧
    chunk_text r maxc k = chunk_text r maxc k :=
  ⟨rfl, rfl, rfl⟩

/-! ### C7: the normalization example -/

/-- C7.  Normalizing the example input (a byte-order mark, literal
backslash escape sequences, real carriage-return line endings, a tab and a
run of three newlines) yields exactly the expected string. -/
theorem normalize_example :
    normalize_text "﻿Line1\\r\\nLine2\r\nLine3\rLine4\tTab\n\n\nLine5".data =
      "Line1\nLine2\nLine3\nLine4 Tab\n\nLine5".data := by decide

/-! ### C6: the stable chunk identifier -/

/-- The hexadecimal rendering of the digest always has forty characters. -/
theorem sha1Hex_length (msg : List Nat) : (sha1Hex msg).length = 40 := by
  simp [sha1Hex, wordHex]

/-- C6.  The stable chunk identifier is the full-length (forty hexadecimal
characters, one hundred and sixty bits) hex encoding of the SHA-1 digest of
the UTF-8 bytes of the key, decimal index and slice joined by vertical
bars, and calling it twice with identical arguments gives the same
string. -/
theorem stable_chunk_id_spec (k : List Char) (i : Nat) (t : List Char) :
    stable_chunk_id k i t =
      sha1Hex (utf8Bytes (k ++ '|' :: (Nat.repr i).data ++ '|' :: t)) ∧
    (stable_chunk_id k i t).length = 40 ∧
    stable_chunk_id k i t = stable_chunk_id k i t :=
  ⟨rfl, sha1Hex_length _, rfl⟩

/-! ### C4: the frame of the overlap applier -/

/-- The overlap walk keeps the list length. -/
theorem overlapLoop_length (k : Nat) : ∀ (l : List (Nat × Nat)) (pe : Nat),
    (overlapLoop k pe l).length = l.length := by
  intro l
  induction l with
  | nil => intro pe; rfl
  | cons hd tl ih =>
    intro pe
    obtain ⟨s, e⟩ := hd
    simp [overlapLoop, ih]

/-- The overlap walk never changes an end offset. -/
theorem overlapLoop_snd (k : Nat) : ∀ (l : List (Nat × Nat)) (pe i : Nat),
    ((overlapLoop k pe l)[i]?).map Prod.snd = (l[i]?).map Prod.snd := by
  intro l
  induction l with
  | nil => intro pe i; rfl
  | cons hd tl ih =>
    intro pe i
    obtain ⟨s, e⟩ := hd
    cases i with
    | zero => simp [overlapLoop]
    | succ j => simpa [overlapLoop] using ih e j

/-- The first span produced by the overlap walk pulls its start back to the
clamped overlap point of the carried previous end. -/
theorem overlapLoop_head (k : Nat) (l : List (Nat × Nat)) (pe s e : Nat)
    (h : l[0]? = some (s, e)) :
    (overlapLoop k pe l)[0]? = some (min (pe - k) s, e) := by
  cases l with
  | nil => simp at h
  | cons hd tl =>
    obtain ⟨s0, e0⟩ := hd
    simp at h
    obtain ⟨rfl, rfl⟩ := h
    simp [overlapLoop]

/-- Along the overlap walk, each later span's start becomes the minimum of
its original start and the previous span's end minus the overlap. -/
theorem overlapLoop_succ (k : Nat) : ∀ (l : List (Nat × Nat)) (pe i s e s2 e2 : Nat),
    l[i]? = some (s, e) → l[i + 1]? = some (s2, e2) →
    (overlapLoop k pe l)[i + 1]? = some (min (e - k) s2, e2) := by
  intro l
  induction l with
  | nil => intro pe i s e s2 e2 h1 h2; simp at h1
  | cons hd tl ih =>
    intro pe i s e s2 e2 h1 h2
    obtain ⟨s0, e0⟩ := hd
    cases i with
    | zero =>
      simp at h1
      obtain ⟨rfl, rfl⟩ := h1
      simp only [overlapLoop, List.getElem?_cons_succ]
      simp only [List.getElem?_cons_succ] at h2
      exact overlapLoop_head k tl _ s2 e2 h2
    | succ j =>
      simp only [List.getElem?_cons_succ] at h1 h2
      simp only [overlapLoop, List.getElem?_cons_succ]
      exact ih e0 j s e s2 e2 h1 h2

/-- C4.  The overlap applier returns a list of the same length; with a zero
overlap (or no spans) the input is returned unchanged; the first span and
every end offset are preserved; and each later span's start becomes the
minimum of its original start and the clamped overlap point computed from
the previous span's end. -/
theorem apply_overlap_frame (spans : List (Nat × Nat)) (k : Nat) :
    ((k = 0 ∨ spans = []) → apply_overlap spans k = spans) ∧
    (apply_overlap spans k).length = spans.length ∧
    (apply_overlap spans k)[0]? = spans[0]? ∧
    (∀ i : Nat, ((apply_overlap spans k)[i]?).map Prod.snd =
      (spans[i]?).map Prod.snd) ∧
    (k ≠ 0 → ∀ i s e s2 e2 : Nat, spans[i]? = some (s, e) →
      spans[i + 1]? = some (s2, e2) →
      (apply_overlap spans k)[i + 1]? = some (min (e - k) s2, e2)) := by
  by_cases hk : spans = [] ∨ k = 0
  · have hident : apply_overlap spans k = spans := by simp [apply_overlap, hk]
    refine ⟨fun _ => hident, by rw [hident], by rw [hident], fun i => by rw [hident], ?_⟩
    intro hkne i s e s2 e2 h1 h2
    rcases hk with hsp | hk0
    · subst hsp; simp at h1
    · exact absurd hk0 hkne
  · push_neg at hk
    obtain ⟨hsp, hk0⟩ := hk
    have hform : ∀ s0 e0 rest, spans = (s0, e0) :: rest →
        apply_overlap spans k = (s0, e0) :: overlapLoop k e0 rest := by
      intro s0 e0 rest heq
      subst heq
      simp [apply_overlap, hk0]
    cases spans with
    | nil => exact absurd rfl hsp
    | cons hd tl =>
      obtain ⟨s0, e0⟩ := hd
      rw [hform s0 e0 tl rfl]
      refine ⟨?_, ?_, by simp, ?_, ?_⟩
      · rintro (h | h)
        · exact absurd h hk0
        · simp at h
      · simp [overlapLoop_length]
      · intro i
        cases i with
        | zero => simp
        | succ j => simpa using overlapLoop_snd k tl e0 j
      · intro _ i s e s2 e2 h1 h2
        cases i with
        | zero =>
          simp at h1
          obtain ⟨rfl, rfl⟩ := h1
          simp only [List.getElem?_cons_succ] at h2 ⊢
          exact overlapLoop_head k tl _ s2 e2 h2
        | succ j =>
          simp only [List.getElem?_cons_succ] at h1 h2 ⊢
          exact overlapLoop_succ k tl e0 j s e s2 e2 h1 h2

/-- Witness for C4 at a concrete input: a zero overlap returns the list
unchanged, and with overlap one the second span's start is pulled back to
the previous end minus one. -/
theorem apply_overlap_frame_witness :
    apply_overlap [(0, 2), (4, 6)] 0 = [(0, 2), (4, 6)] ∧
    (apply_overlap [(0, 2), (4, 6)] 1)[1]? = some (min (2 - 1) 4, 6) :=
  ⟨(apply_overlap_frame [(0, 2), (4, 6)] 0).1 (Or.inl rfl),
    (apply_overlap_frame [(0, 2), (4, 6)] 1).2.2.2.2 (by decide) 0 0 2 4 6 (by decide)
      (by decide)⟩

/-! ### C2: every base span respects the budget -/

/-- Every fixed-width span has width at most the budget. -/
theorem fixedWidthGo_width (bs maxc : Nat) : ∀ (fuel i len : Nat),
    ∀ sp ∈ fixedWidthGo bs maxc fuel i len, sp.2 - sp.1 ≤ maxc := by
  intro fuel
  induction fuel with
  | zero => intro i len sp h; simp [fixedWidthGo] at h
  | succ f ih =>
    intro i len sp h
    simp only [fixedWidthGo] at h
    split at h
    · rcases List.mem_cons.mp h with h | h
      · subst h
        simp only
        have : min (i + maxc) len ≤ i + maxc := Nat.min_le_left _ _
        omega
      · exact ih (i + maxc) len sp h
    · simp at h

/-- Invariant of the sentence-accumulation loop: whenever the last accepted
end is within budget of the window start, every emitted span has width at
most the budget, and the final state keeps the invariant. -/
theorem splitLoop_width (bs maxc len : Nat) : ∀ (ends : List Nat) (cs le : Nat),
    le ≤ cs + maxc →
    (∀ sp ∈ (splitLoop bs maxc len ends cs le).1, sp.2 - sp.1 ≤ maxc) ∧
    (splitLoop bs maxc len ends cs le).2.2 ≤ (splitLoop bs maxc len ends cs le).2.1 + maxc := by
  intro ends
  induction ends with
  | nil =>
    intro cs le h
    exact ⟨fun sp hsp => by simp [splitLoop] at hsp, h⟩
  | cons e tl ih =>
    intro cs le h
    by_cases hfit : e - cs ≤ maxc
    · have := ih cs e (by omega)
      simpa [splitLoop, hfit] using this
    · simp only [splitLoop, if_neg hfit]
      by_cases hle : le = cs
      · simp only [if_pos hle]
        set cs1 := min (cs + maxc) len with hcs1
        set le1 := if e - cs1 ≤ maxc then e else cs1 with hle1
        have hinv : le1 ≤ cs1 + maxc := by
          rw [hle1]; split <;> omega
        have hrec := ih cs1 le1 hinv
        constructor
        · intro sp hsp
          simp only [List.mem_append] at hsp
          rcases hsp with hsp | hsp
          · rcases List.mem_singleton.mp hsp with h2
            subst h2
            simp only
            have : cs1 ≤ cs + maxc := Nat.min_le_left _ _
            omega
          · exact hrec.1 sp hsp
        · exact hrec.2
      · simp only [if_neg hle]
        set le1 := if e - le ≤ maxc then e else le with hle1
        have hinv : le1 ≤ le + maxc := by
          rw [hle1]; split <;> omega
        have hrec := ih le le1 hinv
        constructor
        · intro sp hsp
          simp only [List.mem_append] at hsp
          rcases hsp with hsp | hsp
          · rcases List.mem_singleton.mp hsp with h2
            subst h2
            simp only
            omega
          · exact hrec.1 sp hsp
        · exact hrec.2

/-- Every span emitted by the sentence splitter has width at most the
budget. -/
theorem split_block_into_spans_width (bs : Nat) (bt : List Char) (maxc : Nat) :
    ∀ sp ∈ split_block_into_spans bs bt maxc, sp.2 - sp.1 ≤ maxc := by
  intro sp hsp
  simp only [split_block_into_spans] at hsp
  split at hsp
  · rcases List.mem_singleton.mp hsp with h
    subst h
    simp only
    omega
  · split at hsp
    · exact fixedWidthGo_width bs maxc bt.length 0 bt.length sp hsp
    · rename_i hlen _
      have hloop := splitLoop_width bs maxc bt.length (sentence_end_positions bt) 0 0 (by omega)
      simp only [List.mem_append] at hsp
      rcases hsp with hsp | hsp
      · exact hloop.1 sp hsp
      · set r := splitLoop bs maxc bt.length (sentence_end_positions bt) 0 0 with hr
        split at hsp
        · split at hsp
          · rcases List.mem_cons.mp hsp with h | h
            · subst h
              simp only
              have := hloop.2
              omega
            · split at h
              · exact fixedWidthGo_width bs maxc bt.length r.2.2 bt.length sp h
              · simp at h
          · exact fixedWidthGo_width bs maxc bt.length r.2.1 bt.length sp hsp
        · simp at hsp

/-- Every span emitted by the block-packing loop has width at most the
budget, provided the pending span (if any) does. -/
theorem bbsLoop_width (t : List Char) (maxc : Nat) :
    ∀ (blocks : List (Nat × Nat)) (acc : Option (Nat × Nat)),
    (∀ p, acc = some p → p.2 ≤ p.1 + maxc) →
    ∀ sp ∈ bbsLoop t maxc blocks acc, sp.2 - sp.1 ≤ maxc := by
  intro blocks
  induction blocks with
  | nil =>
    intro acc hacc sp hsp
    cases acc with
    | none => simp [bbsLoop] at hsp
    | some p =>
      simp only [bbsLoop, List.mem_singleton] at hsp
      subst hsp
      have := hacc sp rfl
      omega
  | cons hd tl ih =>
    intro acc hacc sp hsp
    obtain ⟨bS, bE⟩ := hd
    cases acc with
    | none =>
      simp only [bbsLoop] at hsp
      split at hsp
      · rename_i hfit
        exact ih (some (bS, bE)) (by intro p hp; injection hp with hp; subst hp; simp only; omega) sp hsp
      · simp only [List.mem_append] at hsp
        rcases hsp with hsp | hsp
        · exact split_block_into_spans_width bS (sliceL t bS bE) maxc sp hsp
        · exact ih none (by rintro p h; simp at h) sp hsp
    | some pr =>
      obtain ⟨cs, ce⟩ := pr
      simp only [bbsLoop] at hsp
      split at hsp
      · rename_i hfit
        exact ih (some (cs, bE)) (by intro p hp; injection hp with hp; subst hp; simp only; omega) sp hsp
      · rcases List.mem_cons.mp hsp with h | h
        · subst h
          have := hacc (cs, ce) rfl
          simp only at this ⊢
          omega
        · split at h
          · rename_i hfit2
            exact ih (some (bS, bE)) (by intro p hp; injection hp with hp; subst hp; simp only; omega) sp h
          · simp only [List.mem_append] at h
            rcases h with h | h
            · exact split_block_into_spans_width bS (sliceL t bS bE) maxc sp h
            · exact ih none (by rintro p h2; simp at h2) sp h

/-- C2.  Every span produced by the base-span builder has width at most the
character budget, for every text and every positive budget, including the
spans produced by the sentence splitter for an oversized single block. -/
theorem base_spans_respect_budget (t : List Char) (maxc : Nat) (hM : 1 ≤ maxc) :
    ∀ sp ∈ build_base_spans t maxc, sp.2 - sp.1 ≤ maxc := by
  intro sp hsp
  exact bbsLoop_width t maxc (paragraph_block_spans t) none (by rintro p h; simp at h) sp hsp

/-- Witness for C2 at a concrete input. -/
theorem base_spans_respect_budget_witness :
    ((0, 2) : Nat × Nat).2 - (0, 2).1 ≤ 3 :=
  base_spans_respect_budget ('a' :: 'b' :: '\n' :: '\n' :: ['c']) 3 (by decide) (0, 2) (by decide)

/-! ### Span-structure predicates

`Covers a c l` says the spans of `l` tile the interval from `a` to `c`
contiguously with non-empty pieces.  `WCover t a c l` weakens this to allow
gaps between consecutive spans, as long as every character inside a gap is
whitespace of `t`; the first span still starts exactly at `a` and the last
still ends exactly at `c`. -/

/-- Contiguous tiling of the interval from `a` to `c` by non-empty spans. -/
inductive Covers : Nat → Nat → List (Nat × Nat) → Prop
  | nil : ∀ a, Covers a a []
  | cons : ∀ a b c tail, a < b → Covers b c tail → Covers a c ((a, b) :: tail)

/-- Every position from `b` up to (excluding) `g` holds a whitespace
character of `t`. -/
def gapWs (t : List Char) (b g : Nat) : Prop :=
  ∀ p : Nat, b ≤ p → p < g → isPySpace (t.getD p ' ') = true

/-- Ordered non-empty spans from `a` to `c` whose gaps are all-whitespace
in `t`. -/
inductive WCover (t : List Char) : Nat → Nat → List (Nat × Nat) → Prop
  | single : ∀ a b, a < b → WCover t a b [(a, b)]
  | cons : ∀ a b g c tail, a < b → b ≤ g → gapWs t b g → WCover t g c tail →
      WCover t a c ((a, b) :: tail)

theorem Covers.le_end {a c : Nat} {l : List (Nat × Nat)} (h : Covers a c l) : a ≤ c := by
  induction h with
  | nil => exact Nat.le_refl _
  | cons a b c tail hab _ ih => omega

theorem Covers.nil_eq {a c : Nat} (h : Covers a c []) : a = c := by
  cases h; rfl

theorem Covers.cons_lt {a c : Nat} {x : Nat × Nat} {xs : List (Nat × Nat)}
    (h : Covers a c (x :: xs)) : a < c := by
  cases h with
  | cons _ b _ _ hab htail => exact Nat.lt_of_lt_of_le hab htail.le_end

theorem Covers.append {a b c : Nat} {xs ys : List (Nat × Nat)}
    (h1 : Covers a b xs) (h2 : Covers b c ys) : Covers a c (xs ++ ys) := by
  induction h1 with
  | nil => simpa using h2
  | cons a x _ tail hax _ ih => exact Covers.cons _ _ _ _ hax (ih h2)

theorem WCover.ne_nil {t : List Char} {a c : Nat} {l : List (Nat × Nat)}
    (h : WCover t a c l) : l ≠ [] := by
  cases h <;> simp

theorem WCover.head_fst {t : List Char} {a c : Nat} {l : List (Nat × Nat)}
    (h : WCover t a c l) : l.head?.map Prod.fst = some a := by
  cases h <;> rfl

theorem WCover.le_stop {t : List Char} {a c : Nat} {l : List (Nat × Nat)}
    (h : WCover t a c l) : a ≤ c := by
  induction h with
  | single a b hab => omega
  | cons a b g c tail hab hbg _ _ ih => omega

theorem WCover.last_snd {t : List Char} {a c : Nat} {l : List (Nat × Nat)}
    (h : WCover t a c l) : l.getLast?.map Prod.snd = some c := by
  induction h with
  | single a b hab => rfl
  | cons a b g c tail hab hbg hgap htail ih =>
    rw [← ih]
    cases htail <;> rfl

theorem WCover.head_snd_le {t : List Char} {a c : Nat} {x b : Nat} {tl : List (Nat × Nat)}
    (h : WCover t a c ((x, b) :: tl)) : b ≤ c := by
  cases h with
  | single _ _ hab => exact Nat.le_refl _
  | cons _ _ g _ _ hab hbg hgap htail => exact Nat.le_trans hbg htail.le_stop

theorem WCover.chain {t : List Char} {a c : Nat} {l : List (Nat × Nat)}
    (h : WCover t a c l) : List.Chain' (fun x y => x.2 ≤ y.1) l := by
  induction h with
  | single a b hab => simp
  | cons a b g c tail hab hbg hgap htail ih =>
    refine List.chain'_cons'.mpr ⟨?_, ih⟩
    intro y hy
    have hfst := htail.head_fst
    rw [hy] at hfst
    simp at hfst
    omega

theorem WCover.mem_pos {t : List Char} {a c : Nat} {l : List (Nat × Nat)}
    (h : WCover t a c l) : ∀ sp ∈ l, sp.1 < sp.2 := by
  induction h with
  | single a b hab => intro sp hsp; rcases List.mem_singleton.mp hsp with h2; subst h2; exact hab
  | cons a b g c tail hab hbg hgap htail ih =>
    intro sp hsp
    rcases List.mem_cons.mp hsp with h2 | h2
    · subst h2; exact hab
    · exact ih sp h2

theorem WCover.uncovered_ws {t : List Char} {a c : Nat} {l : List (Nat × Nat)}
    (h : WCover t a c l) : ∀ p : Nat, a ≤ p → p < c →
    (∀ sp ∈ l, p < sp.1 ∨ sp.2 ≤ p) → isPySpace (t.getD p ' ') = true := by
  induction h with
  | single a b hab =>
    intro p hap hpc hout
    have := hout (a, b) (List.mem_singleton.mpr rfl)
    simp at this
    omega
  | cons a b g c tail hab hbg hgap htail ih =>
    intro p hap hpc hout
    have hhd := hout (a, b) (List.mem_cons_self _ _)
    simp at hhd
    have hbp : b ≤ p := by omega
    by_cases hpg : p < g
    · exact hgap p hbp hpg
    · exact ih p (by omega) hpc (fun sp hsp => hout sp (List.mem_cons_of_mem _ hsp))

theorem WCover.append_gap {t : List Char} {a b g c : Nat} {xs ys : List (Nat × Nat)}
    (h1 : WCover t a b xs) (hbg : b ≤ g) (hgap : gapWs t b g) (h2 : WCover t g c ys) :
    WCover t a c (xs ++ ys) := by
  induction h1 with
  | single x y hxy => exact WCover.cons _ _ _ _ _ hxy hbg hgap h2
  | cons x y g2 _ tail hxy hyg2 hgap2 htail ih =>
    exact WCover.cons _ _ _ _ _ hxy hyg2 hgap2 (ih hbg hgap)

theorem Covers.toWCover {t : List Char} {a c : Nat} {l : List (Nat × Nat)}
    (h : Covers a c l) (hac : a < c) : WCover t a c l := by
  induction h with
  | nil => omega
  | cons a b c tail hab htail ih =>
    cases tail with
    | nil =>
      have hbc : b = c := htail.nil_eq
      subst hbc
      exact WCover.single a b hab
    | cons hd tl =>
      have hbc : b < c := htail.cons_lt
      exact WCover.cons _ _ _ _ _ hab (Nat.le_refl b) (fun p h1 h2 => by omega) (ih hbc)

/-! ### The sentence splitter tiles its block contiguously -/

/-- Every recorded sentence end lies strictly beyond the scan position and
within the scanned suffix. -/
theorem sentScanGo_bounds : ∀ (fuel : Nat) (l : List Char) (i : Nat),
    ∀ e ∈ sentScanGo fuel l i, i < e ∧ e ≤ i + l.length := by
  intro fuel
  induction fuel with
  | zero => intro l i e he; simp [sentScanGo] at he
  | succ f ih =>
    intro l i e he
    cases l with
    | nil => simp [sentScanGo] at he
    | cons c rest =>
      cases rest with
      | nil =>
        simp only [sentScanGo] at he
        split at he
        · rcases List.mem_cons.mp he with h | h
          · subst h; simp only [List.length_cons]; omega
          · cases f <;> simp [sentScanGo] at h
        · simp at he
      | cons c2 rest2 =>
        simp only [sentScanGo] at he
        split at he
        · rcases List.mem_cons.mp he with h | h
          · subst h; simp only [List.length_cons]; omega
          · have := ih (c2 :: rest2) (i + 1) e h
            simp at this ⊢
            omega
        · split at he
          · rcases List.mem_cons.mp he with h | h
            · subst h; simp only [List.length_cons]; omega
            · have := ih rest2 (i + 2) e h
              simp at this ⊢
              omega
          · have := ih (c2 :: rest2) (i + 1) e he
            simp at this ⊢
            omega

/-- The recorded sentence ends are strictly increasing. -/
theorem sentScanGo_pairwise : ∀ (fuel : Nat) (l : List Char) (i : Nat),
    List.Pairwise (fun x y => x < y) (sentScanGo fuel l i) := by
  intro fuel
  induction fuel with
  | zero => intro l i; simp [sentScanGo]
  | succ f ih =>
    intro l i
    cases l with
    | nil => simp [sentScanGo]
    | cons c rest =>
      cases rest with
      | nil =>
        simp only [sentScanGo]
        split
        · refine List.Pairwise.cons (fun e he => ?_) ?_
          · cases f <;> simp [sentScanGo] at he
          · cases f <;> simp [sentScanGo]
        · simp
      | cons c2 rest2 =>
        simp only [sentScanGo]
        split
        · exact List.Pairwise.cons (fun e he => (sentScanGo_bounds f (c2 :: rest2) (i + 1) e he).1)
            (ih (c2 :: rest2) (i + 1))
        · split
          · exact List.Pairwise.cons (fun e he => (sentScanGo_bounds f rest2 (i + 2) e he).1)
              (ih rest2 (i + 2))
          · exact ih (c2 :: rest2) (i + 1)

/-- Once the running index reaches the length, the fixed-width loop stops. -/
theorem fixedWidthGo_stop (bs maxc : Nat) (fuel i len : Nat) (h : len ≤ i) :
    fixedWidthGo bs maxc fuel i len = [] := by
  cases fuel with
  | zero => rfl
  | succ f =>
    simp only [fixedWidthGo]
    rw [if_neg]
    omega

/-- The fixed-width loop tiles the remaining interval contiguously. -/
theorem fixedWidthGo_covers (bs maxc : Nat) (hM : 1 ≤ maxc) : ∀ (fuel i len : Nat),
    i < len → len ≤ i + fuel →
    Covers (bs + i) (bs + len) (fixedWidthGo bs maxc fuel i len) := by
  intro fuel
  induction fuel with
  | zero => intro i len h1 h2; omega
  | succ f ih =>
    intro i len h1 h2
    simp only [fixedWidthGo]
    rw [if_pos (by omega)]
    by_cases hend : i + maxc < len
    · have hmin : min (i + maxc) len = i + maxc := by omega
      rw [hmin]
      exact Covers.cons _ _ _ _ (by omega) (ih (i + maxc) len hend (by omega))
    · have hmin : min (i + maxc) len = len := by omega
      rw [hmin, fixedWidthGo_stop bs maxc f (i + maxc) len (by omega)]
      exact Covers.cons _ _ _ _ (by omega) (Covers.nil _)

/-- The greedy sentence-accumulation loop tiles the interval from the
window start to its final window start, and its final state stays within
bounds. -/
theorem splitLoop_covers (bs maxc len : Nat) (hM : 1 ≤ maxc) :
    ∀ (ends : List Nat) (cs le : Nat),
    cs ≤ le → le ≤ len →
    (∀ e ∈ ends, le ≤ e ∧ e ≤ len) →
    List.Pairwise (fun x y => x ≤ y) ends →
    Covers (bs + cs) (bs + (splitLoop bs maxc len ends cs le).2.1)
      (splitLoop bs maxc len ends cs le).1 ∧
    cs ≤ (splitLoop bs maxc len ends cs le).2.1 ∧
    (splitLoop bs maxc len ends cs le).2.1 ≤ (splitLoop bs maxc len ends cs le).2.2 ∧
    (splitLoop bs maxc len ends cs le).2.2 ≤ len := by
  intro ends
  induction ends with
  | nil =>
    intro cs le h1 h2 _ _
    exact ⟨Covers.nil _, Nat.le_refl _, h1, h2⟩
  | cons e tl ih =>
    intro cs le h1 h2 hmem hpw
    have hee := hmem e (List.mem_cons_self _ _)
    have hmem2 : ∀ x ∈ tl, e ≤ x ∧ x ≤ len := by
      intro x hx
      exact ⟨List.rel_of_pairwise_cons hpw hx, (hmem x (List.mem_cons_of_mem _ hx)).2⟩
    have hpw2 := List.Pairwise.of_cons hpw
    by_cases hfit : e - cs ≤ maxc
    · have := ih cs e (by omega) (by omega)
        (fun x hx => ⟨(hmem2 x hx).1, (hmem2 x hx).2⟩) hpw2
      simpa [splitLoop, hfit] using this
    · simp only [splitLoop, if_neg hfit]
      by_cases hle : le = cs
      · simp only [if_pos hle]
        set he := min (cs + maxc) len with hhe
        have hcs_lt : cs < len := by omega
        have hhe1 : cs < he := by omega
        have hhe2 : he ≤ len := by omega
        have hhe3 : he < e := by omega
        set le1 := if e - he ≤ maxc then e else he with hle1
        have hle1a : he ≤ le1 := by rw [hle1]; split <;> omega
        have hle1b : le1 ≤ len := by rw [hle1]; split <;> omega
        have hmem3 : ∀ x ∈ tl, le1 ≤ x ∧ x ≤ len := by
          intro x hx
          have := hmem2 x hx
          constructor
          · rw [hle1]; split <;> omega
          · omega
        have hrec := ih he le1 hle1a hle1b hmem3 hpw2
        refine ⟨?_, by omega, hrec.2.2.1, hrec.2.2.2⟩
        simp only [List.singleton_append]
        exact Covers.cons _ _ _ _ (by omega) hrec.1
      · simp only [if_neg hle]
        have hcs_lt_le : cs < le := by omega
        set le1 := if e - le ≤ maxc then e else le with hle1
        have hle1a : le ≤ le1 := by rw [hle1]; split <;> omega
        have hle1b : le1 ≤ len := by rw [hle1]; split <;> omega
        have hmem3 : ∀ x ∈ tl, le1 ≤ x ∧ x ≤ len := by
          intro x hx
          have := hmem2 x hx
          constructor
          · rw [hle1]; split <;> omega
          · omega
        have hrec := ih le le1 hle1a hle1b hmem3 hpw2
        refine ⟨?_, by omega, hrec.2.2.1, hrec.2.2.2⟩
        simp only [List.singleton_append]
        exact Covers.cons _ _ _ _ (by omega) hrec.1

/-- The sentence splitter tiles its whole (non-empty) block contiguously:
its spans start at the block start, are adjacent, and end exactly at the
block end. -/
theorem split_block_into_spans_covers (bs : Nat) (bt : List Char) (maxc : Nat)
    (hM : 1 ≤ maxc) (hne : bt ≠ []) :
    Covers bs (bs + bt.length) (split_block_into_spans bs bt maxc) := by
  have hlen : 0 < bt.length := List.length_pos.mpr hne
  simp only [split_block_into_spans]
  split
  · exact Covers.cons _ _ _ _ (by omega) (Covers.nil _)
  · rename_i hbig
    split
    · exact fixedWidthGo_covers bs maxc hM bt.length 0 bt.length (by omega) (by omega)
    · rename_i hends
      have hbounds : ∀ e ∈ sentence_end_positions bt, (0 : Nat) ≤ e ∧ e ≤ bt.length := by
        intro e he
        have := sentScanGo_bounds bt.length bt 0 e he
        omega
      have hpw : List.Pairwise (fun x y => x ≤ y) (sentence_end_positions bt) :=
        (sentScanGo_pairwise bt.length bt 0).imp (fun h => Nat.le_of_lt h)
      have hloop := splitLoop_covers bs maxc bt.length hM (sentence_end_positions bt) 0 0
        (Nat.le_refl _) (by omega) hbounds hpw
      set r := splitLoop bs maxc bt.length (sentence_end_positions bt) 0 0 with hr
      obtain ⟨hcov, _, hcsle, hlelen⟩ := hloop
      by_cases hcs : r.2.1 < bt.length
      · rw [if_pos hcs]
        by_cases hlt : r.2.1 < r.2.2
        · rw [if_pos hlt]
          by_cases hle2 : r.2.2 < bt.length
          · rw [if_pos hle2]
            refine Covers.append hcov ?_
            exact Covers.cons _ _ _ _ (by omega)
              (fixedWidthGo_covers bs maxc hM bt.length r.2.2 bt.length hle2 (by omega))
          · have : r.2.2 = bt.length := by omega
            rw [if_neg hle2, this]
            exact Covers.append hcov (Covers.cons _ _ _ _ (by omega) (Covers.nil _))
        · rw [if_neg hlt]
          exact Covers.append hcov
            (fixedWidthGo_covers bs maxc hM bt.length r.2.1 bt.length hcs (by omega))
      · have hreq : r.2.1 = bt.length := by omega
        rw [hreq] at hcov
        rw [if_neg hcs]
        simpa using hcov

/-! ### Soundness of the paragraph-separator scanner -/

/-- Indexing with a default commutes with dropping an initial segment. -/
theorem getD_of_drop (t l : List Char) (i p : Nat) (h : t.drop i = l) :
    t.getD (i + p) ' ' = l.getD p ' ' := by
  rw [List.getD_eq_getElem?_getD, List.getD_eq_getElem?_getD, ← h, List.getElem?_drop]

/-- Dropping one more element from a suffix known to be a cons. -/
theorem drop_succ_of_drop_cons {t : List Char} {i : Nat} {c : Char} {rest : List Char}
    (h : t.drop i = c :: rest) : t.drop (i + 1) = rest := by
  have := List.drop_drop 1 i t
  rw [h] at this
  simpa using this.symm

/-- The helper of the separator scanner: when it returns an offset, that
offset is positive, within the list, everything before it is whitespace,
and the character just before it is a newline. -/
theorem lastNlInWs_spec : ∀ (l : List Char) (j : Nat), lastNlInWs l = some j →
    1 ≤ j ∧ j ≤ l.length ∧ (∀ p : Nat, p < j → isPySpace (l.getD p ' ') = true) ∧
    l.getD (j - 1) ' ' = '\n' := by
  intro l
  induction l with
  | nil => intro j h; simp [lastNlInWs] at h
  | cons c rest ih =>
    intro j h
    simp only [lastNlInWs] at h
    split at h
    · rename_i hws
      cases hrec : lastNlInWs rest with
      | some j0 =>
        simp only [hrec] at h
        simp at h
        subst h
        obtain ⟨ha, hb, hc, hd⟩ := ih j0 hrec
        refine ⟨by omega, by simp; omega, ?_, ?_⟩
        · intro p hp
          cases p with
          | zero => simpa using hws
          | succ q => simpa using hc q (by omega)
        · have hj0 : j0 + 1 - 1 = (j0 - 1) + 1 := by omega
          rw [hj0, List.getD_cons_succ]
          exact hd
      | none =>
        simp only [hrec] at h
        split at h
        · rename_i hnl
          simp at h
          subst h
          refine ⟨Nat.le_refl _, by simp, ?_, by simpa using hnl⟩
          intro p hp
          have hp0 : p = 0 := by omega
          subst hp0
          simpa using hws
        · simp at h
    · simp at h

/-- Well-formedness of a separator-match list relative to the full text:
matches are ordered, non-empty, within bounds, all-whitespace, and each
ends just after a newline. -/
inductive SepsOK (t : List Char) : Nat → List (Nat × Nat) → Prop
  | nil : ∀ i, SepsOK t i []
  | cons : ∀ i ms me seps, i ≤ ms → ms < me → me ≤ t.length →
      (∀ p : Nat, ms ≤ p → p < me → isPySpace (t.getD p ' ') = true) →
      t.getD (me - 1) ' ' = '\n' →
      SepsOK t me seps → SepsOK t i ((ms, me) :: seps)

/-- Weakening the lower position bound of a well-formed match list. -/
theorem SepsOK.mono {t : List Char} {i i2 : Nat} {seps : List (Nat × Nat)}
    (h : i ≤ i2) (hs : SepsOK t i2 seps) : SepsOK t i seps := by
  cases hs with
  | nil => exact SepsOK.nil i
  | cons _ ms me seps h1 h2 h3 h4 h5 h6 =>
    exact SepsOK.cons i ms me seps (by omega) h2 h3 h4 h5 h6

/-- The separator scanner only reports well-formed matches. -/
theorem sepScanGo_ok : ∀ (fuel : Nat) (l : List Char) (i : Nat) (t : List Char),
    t.drop i = l → SepsOK t i (sepScanGo fuel l i) := by
  intro fuel
  induction fuel with
  | zero => intro l i t _; exact SepsOK.nil i
  | succ f ih =>
    intro l i t hdrop
    cases l with
    | nil => exact SepsOK.nil i
    | cons c rest =>
      have hlen : i + (c :: rest).length = t.length := by
        have h1 : (t.drop i).length = t.length - i := List.length_drop i t
        rw [hdrop] at h1
        have h2 : i < t.length := by
          by_contra hcon
          push_neg at hcon
          have : t.drop i = [] := List.drop_eq_nil_of_le hcon
          rw [hdrop] at this
          simp at this
        simp at h1 ⊢
        omega
      have hrest : t.drop (i + 1) = rest := drop_succ_of_drop_cons hdrop
      have hc : t.getD i ' ' = c := by
        have := getD_of_drop t (c :: rest) i 0 hdrop
        simpa using this
      simp only [sepScanGo]
      split
      · rename_i hnl
        cases hlast : lastNlInWs rest with
        | some j =>
          simp only [hlast]
          obtain ⟨hj1, hj2, hjws, hjnl⟩ := lastNlInWs_spec rest j hlast
          refine SepsOK.cons i i (i + 1 + j) _ (Nat.le_refl i) (by omega)
            (by simp at hlen ⊢; omega) ?_ ?_ ?_
          · intro p hp1 hp2
            rcases Nat.lt_or_ge p (i + 1) with hp | hp
            · have hpi : p = i := by omega
              subst hpi
              rw [hc, hnl]
              decide
            · have hq : p = (i + 1) + (p - (i + 1)) := by omega
              rw [hq, getD_of_drop t rest (i + 1) (p - (i + 1)) hrest]
              exact hjws (p - (i + 1)) (by omega)
          · have hq : i + 1 + j - 1 = (i + 1) + (j - 1) := by omega
            rw [hq, getD_of_drop t rest (i + 1) (j - 1) hrest]
            exact hjnl
          · refine ih (rest.drop j) (i + 1 + j) t ?_
            have := List.drop_drop j (i + 1) t
            rw [hrest] at this
            rw [← this]
        | none =>
          simp only [hlast]
          exact SepsOK.mono (by omega) (ih rest (i + 1) t hrest)
      · exact SepsOK.mono (by omega) (ih rest (i + 1) t hrest)

/-! ### The paragraph segmenter produces a whitespace-gapped cover -/

/-- The optional head of a non-empty list is its entry at position zero. -/
theorem head_getD (t : List Char) (hne : t ≠ []) : t.head? = some (t.getD 0 ' ') := by
  cases t with
  | nil => exact absurd rfl hne
  | cons c rest => rfl

/-- The optional last entry of a non-empty list is its entry at the last
position. -/
theorem getLast_getD (t : List Char) (hne : t ≠ []) :
    t.getLast? = some (t.getD (t.length - 1) ' ') := by
  have hlen : t.length - 1 < t.length := by
    have := List.length_pos.mpr hne
    omega
  rw [List.getLast?_eq_getElem?, List.getD_eq_getElem?_getD, List.getElem?_eq_getElem hlen]
  rfl

/-- Walking a well-formed separator-match list from a position strictly
inside a text whose last character is not whitespace produces a
whitespace-gapped cover of the rest of the text, possibly after skipping an
initial all-whitespace stretch. -/
theorem blocksFromSeps_wcover (t : List Char)
    (hlast : ∀ c, t.getLast? = some c → isPySpace c = false) :
    ∀ (seps : List (Nat × Nat)) (start : Nat), SepsOK t start seps → start < t.length →
    ∃ g, start ≤ g ∧ gapWs t start g ∧
      WCover t g t.length (blocksFromSeps t.length start seps) := by
  intro seps
  induction seps with
  | nil =>
    intro start hok hlt
    refine ⟨start, Nat.le_refl _, fun p h1 h2 => by omega, ?_⟩
    simp only [blocksFromSeps, if_pos hlt]
    exact WCover.single _ _ hlt
  | cons hd tl ih =>
    intro start hok hlt
    obtain ⟨ms, me⟩ := hd
    cases hok with
    | cons _ _ _ _ h1 h2 h3 h4 h5 h6 =>
      have hme : me < t.length := by
        by_contra hcon
        push_neg at hcon
        have hmeq : me = t.length := by omega
        have hne : t ≠ [] := by intro h; subst h; simp at hlt
        have hl : t.getLast? = some (t.getD (t.length - 1) ' ') := getLast_getD t hne
        have hfalse := hlast _ hl
        rw [← hmeq, h5] at hfalse
        exact absurd hfalse (by decide)
      obtain ⟨g2, hg2a, hg2b, hg2c⟩ := ih me h6 hme
      by_cases hsm : start < ms
      · refine ⟨start, Nat.le_refl _, fun p u v => by omega, ?_⟩
        simp only [blocksFromSeps, if_pos hsm, List.singleton_append]
        refine WCover.cons _ _ g2 _ _ hsm (by omega) ?_ hg2c
        intro p hp1 hp2
        by_cases hpm : p < me
        · exact h4 p hp1 hpm
        · exact hg2b p (by omega) hp2
      · refine ⟨g2, by omega, ?_, ?_⟩
        · intro p hp1 hp2
          by_cases hpm : p < me
          · exact h4 p (by omega) hpm
          · exact hg2b p (by omega) hp2
        · simp only [blocksFromSeps, if_neg hsm, List.nil_append]
          exact hg2c

/-- For a non-empty text whose first and last characters are not
whitespace (as normalization guarantees), the paragraph segmenter yields a
whitespace-gapped cover of the whole text: non-empty blocks in order, the
first starting at zero, the last ending at the length, and only whitespace
between consecutive blocks. -/
theorem paragraph_block_spans_wcover (t : List Char) (hne : t ≠ [])
    (hhead : ∀ c, t.head? = some c → isPySpace c = false)
    (hlast : ∀ c, t.getLast? = some c → isPySpace c = false) :
    WCover t 0 t.length (paragraph_block_spans t) := by
  have hlen : 0 < t.length := List.length_pos.mpr hne
  have hok : SepsOK t 0 (sepScan t) := sepScanGo_ok t.length t 0 t (by simp)
  obtain ⟨g, hg1, hg2, hg3⟩ := blocksFromSeps_wcover t hlast (sepScan t) 0 hok hlen
  have hg0 : g = 0 := by
    by_contra hcon
    have h0g : 0 < g := by omega
    have hws := hg2 0 (by omega) h0g
    have hfalse := hhead _ (head_getD t hne)
    rw [hws] at hfalse
    simp at hfalse
  subst hg0
  simp only [paragraph_block_spans, if_neg hne]
  exact hg3

/-! ### The base-span builder preserves whitespace-gapped covers -/

/-- A slice of the text bounded by the text length has the expected
length. -/
theorem sliceL_length (t : List Char) (a b : Nat) (hle : b ≤ t.length) :
    (sliceL t a b).length = b - a := by
  simp [sliceL]
  omega

/-- The sentence splitter, applied to a block slice of the text, produces a
whitespace-gapped (in fact gap-free) cover of the block. -/
theorem split_wcover (t : List Char) (maxc bS bE : Nat) (hM : 1 ≤ maxc)
    (hab : bS < bE) (hle : bE ≤ t.length) :
    WCover t bS bE (split_block_into_spans bS (sliceL t bS bE) maxc) := by
  have hlen : (sliceL t bS bE).length = bE - bS := sliceL_length t bS bE hle
  have hne : sliceL t bS bE ≠ [] := by
    intro h
    rw [h] at hlen
    simp at hlen
    omega
  have hcov := split_block_into_spans_covers bS (sliceL t bS bE) maxc hM hne
  rw [hlen] at hcov
  have heq : bS + (bE - bS) = bE := by omega
  rw [heq] at hcov
  exact hcov.toWCover hab

/-- The block-packing loop turns a whitespace-gapped cover by paragraph
blocks into a whitespace-gapped cover by base spans, both with no pending
span and with a pending span that sits before the remaining blocks. -/
theorem bbsLoop_wcover (t : List Char) (maxc : Nat) (hM : 1 ≤ maxc) :
    ∀ (blocks : List (Nat × Nat)),
    (∀ a c : Nat, c ≤ t.length → WCover t a c blocks →
      WCover t a c (bbsLoop t maxc blocks none)) ∧
    (∀ cs ce g c : Nat, c ≤ t.length → cs < ce → ce ≤ g → gapWs t ce g →
      WCover t g c blocks →
      WCover t cs c (bbsLoop t maxc blocks (some (cs, ce)))) := by
  intro blocks
  induction blocks with
  | nil =>
    constructor
    · intro a c _ hW
      exact absurd rfl hW.ne_nil
    · intro cs ce g c _ _ _ _ hW
      exact absurd rfl hW.ne_nil
  | cons hd tl ih =>
    obtain ⟨bS, bE⟩ := hd
    obtain ⟨ihP, ihQ⟩ := ih
    constructor
    · intro a c hclen hW
      cases hW with
      | single _ _ hab =>
        simp only [bbsLoop]
        split
        · exact WCover.single _ _ hab
        · have hsl := split_wcover t maxc bS bE hM hab hclen
          simpa [bbsLoop] using hsl
      | cons _ _ g _ _ hab hbg hgap htail =>
        simp only [bbsLoop]
        split
        · exact ihQ bS bE g c hclen hab hbg hgap htail
        · have hsl := split_wcover t maxc bS bE hM hab (Nat.le_trans hbg
            (Nat.le_trans htail.le_stop hclen))
          exact hsl.append_gap hbg hgap (ihP g c hclen htail)
    · intro cs ce g c hclen hcs hce hgap hW
      cases hW with
      | single _ _ hab =>
        simp only [bbsLoop]
        split
        · exact WCover.single _ _ (by omega)
        · split
          · exact WCover.cons _ _ bS _ _ hcs hce hgap (WCover.single _ _ hab)
          · have hsl := split_wcover t maxc bS bE hM hab hclen
            refine WCover.cons _ _ bS _ _ hcs hce hgap ?_
            simpa [bbsLoop] using hsl
      | cons _ _ g2 _ _ hab hbg2 hgap2 htail =>
        simp only [bbsLoop]
        split
        · exact ihQ cs bE g2 c hclen (by omega) hbg2 hgap2 htail
        · refine WCover.cons _ _ bS _ _ hcs hce hgap ?_
          split
          · exact ihQ bS bE g2 c hclen hab hbg2 hgap2 htail
          · have hsl := split_wcover t maxc bS bE hM hab (Nat.le_trans hbg2
              (Nat.le_trans htail.le_stop hclen))
            exact hsl.append_gap hbg2 hgap2 (ihP g2 c hclen htail)

/-- For a non-empty normalized text, the base spans form a
whitespace-gapped cover of the whole text. -/
theorem build_base_spans_wcover (t : List Char) (maxc : Nat) (hM : 1 ≤ maxc)
    (hne : t ≠ [])
    (hhead : ∀ c, t.head? = some c → isPySpace c = false)
    (hlast : ∀ c, t.getLast? = some c → isPySpace c = false) :
    WCover t 0 t.length (build_base_spans t maxc) :=
  (bbsLoop_wcover t maxc hM (paragraph_block_spans t)).1 0 t.length (Nat.le_refl _)
    (paragraph_block_spans_wcover t hne hhead hlast)

/-! ### Normalized text neither starts nor ends with whitespace -/

/-- What survives the leading filter does not satisfy the predicate at its
head. -/
theorem dropWhile_head_not (p : Char → Bool) : ∀ (l : List Char) (c : Char) (rest : List Char),
    l.dropWhile p = c :: rest → p c = false := by
  intro l
  induction l with
  | nil => intro c rest h; simp at h
  | cons d tl ih =>
    intro c rest h
    rw [List.dropWhile_cons] at h
    split at h
    · exact ih c rest h
    · rename_i hp
      injection h with h1 _
      subst h1
      simpa using hp

/-- Removing a leading stretch does not change the last entry when
something remains. -/
theorem dropWhile_getLast (p : Char → Bool) : ∀ (l : List Char),
    l.dropWhile p ≠ [] → (l.dropWhile p).getLast? = l.getLast? := by
  intro l
  induction l with
  | nil => intro h; simp at h
  | cons d tl ih =>
    intro hne
    rw [List.dropWhile_cons] at hne ⊢
    by_cases hp : p d = true
    · rw [if_pos hp] at hne ⊢
      rw [ih hne]
      cases tl with
      | nil => simp at hne
      | cons e tl2 => exact List.getLast?_cons_cons.symm
    · rw [if_neg hp]

/-- A non-empty stripped string starts with a non-whitespace character. -/
theorem stripWs_head_not (l : List Char) (c : Char) (h : (stripWs l).head? = some c) :
    isPySpace c = false := by
  rw [stripWs, List.head?_reverse] at h
  have hmne : (l.dropWhile (fun x => isPySpace x)).reverse.dropWhile
      (fun x => isPySpace x) ≠ [] := by
    intro hx
    rw [hx] at h
    simp at h
  rw [dropWhile_getLast _ _ hmne, List.getLast?_reverse] at h
  cases hh : l.dropWhile (fun x => isPySpace x) with
  | nil => rw [hh] at h; simp at h
  | cons d rest =>
    rw [hh] at h
    simp at h
    subst h
    exact dropWhile_head_not _ l d rest hh

/-- A non-empty stripped string ends with a non-whitespace character. -/
theorem stripWs_last_not (l : List Char) (c : Char) (h : (stripWs l).getLast? = some c) :
    isPySpace c = false := by
  rw [stripWs, List.getLast?_reverse] at h
  cases hh : (l.dropWhile (fun x => isPySpace x)).reverse.dropWhile (fun x => isPySpace x) with
  | nil => rw [hh] at h; simp at h
  | cons d rest =>
    rw [hh] at h
    simp at h
    subst h
    exact dropWhile_head_not _ _ d rest hh

/-- The normalizer never leaves whitespace at the head. -/
theorem normalize_text_head_not (s : List Char) :
    ∀ c, (normalize_text s).head? = some c → isPySpace c = false := by
  intro c h
  exact stripWs_head_not _ c h

/-- The normalizer never leaves whitespace at the end. -/
theorem normalize_text_last_not (s : List Char) :
    ∀ c, (normalize_text s).getLast? = some c → isPySpace c = false := by
  intro c h
  exact stripWs_last_not _ c h

/-! ### From chunk records back to spans -/

/-- Projecting the span out of the materialized chunk records recovers the
span list, whatever the numbering start. -/
theorem enumFrom_chunks_spans (r : MeetingRecord) (n : List Char) :
    ∀ (spans : List (Nat × Nat)) (i : Nat),
    ((List.enumFrom i spans).map (fun p =>
      ({ meeting_key := r.meeting_key, date_ymd := r.date_ymd, meeting_name := r.meeting_name,
         chunk_index := p.1, chunk_id := stable_chunk_id r.meeting_key p.1 (sliceL n p.2.1 p.2.2),
         char_start := p.2.1, char_end := p.2.2, text := sliceL n p.2.1 p.2.2 } : ChunkRecord))).map
      (fun cr => (cr.char_start, cr.char_end)) = spans := by
  intro spans
  induction spans with
  | nil => intro i; rfl
  | cons hd tl ih =>
    intro i
    obtain ⟨s, e⟩ := hd
    simp only [List.enumFrom_cons, List.map_cons, ih (i + 1)]

/-- The spans carried by the materialized chunks are exactly the overlapped
base spans. -/
theorem chunk_spans_map (r : MeetingRecord) (n : List Char) (maxc k : Nat) (hne : n ≠ []) :
    (chunk_text_from_normalized r n maxc k).map (fun cr => (cr.char_start, cr.char_end)) =
      apply_overlap (build_base_spans n maxc) k := by
  simp only [chunk_text_from_normalized, if_neg hne]
  exact enumFrom_chunks_spans r n (apply_overlap (build_base_spans n maxc) k) 0

/-- Every materialized chunk's text is the slice of the normalized text at
its own span. -/
theorem chunk_mem_text (r : MeetingRecord) (n : List Char) (maxc k : Nat) :
    ∀ cr ∈ chunk_text_from_normalized r n maxc k,
      cr.text = sliceL n cr.char_start cr.char_end := by
  intro cr hcr
  simp only [chunk_text_from_normalized] at hcr
  split at hcr
  · simp at hcr
  · rcases List.mem_map.mp hcr with ⟨p, _, heq⟩
    subst heq
    rfl

/-! ### C1: coverage of the normalized text by the spans -/

/-- C1 counterexample.  With zero overlap the claimed exact reconstruction
fails: for the transcript consisting of one letter, a blank line and
another letter, with a budget of one character, the two chunks span
positions zero to one and three to four, so their concatenated slices miss
the separator and there is a gap between the first chunk's end and the
second chunk's start. -/
theorem base_coverage_counterexample :
    ((chunk_text ⟨['k'], [], [], 0, ['a', '\n', '\n', 'b']⟩ 1 0).map
      (fun cr => cr.text)).flatten ≠ normalize_text ['a', '\n', '\n', 'b'] ∧
    (chunk_text ⟨['k'], [], [], 0, ['a', '\n', '\n', 'b']⟩ 1 0).map
      (fun cr => (cr.char_start, cr.char_end)) = [(0, 1), (3, 4)] := by
  constructor
  · decide
  · decide

/-- Transfer of the span-chain relation from projected spans back to the
chunk records. -/
theorem chunks_chain_of_spans (chunks : List ChunkRecord)
    (hsp : List.Chain' (fun x y : Nat × Nat => x.2 ≤ y.1)
      (chunks.map (fun cr => (cr.char_start, cr.char_end)))) :
    List.Chain' (fun a b : ChunkRecord => a.char_end ≤ b.char_start) chunks :=
  (List.chain'_map (fun cr : ChunkRecord => (cr.char_start, cr.char_end))).mp hsp

/-- C1 (amended).  With zero overlap, the chunk spans need not concatenate
to the whole normalized text: the base-span builder skips the blank-line
separators between paragraph blocks that were not packed into a common
span.  What holds instead: for a non-empty normalized text the chunks are
non-empty, the first span starts at zero, the last span ends at the text
length, consecutive spans are ordered and disjoint, every span is
non-empty, and every uncovered position holds a whitespace character (it
lies inside a blank-line separator). -/
theorem chunk_spans_cover_with_ws_gaps (r : MeetingRecord) (maxc : Nat) (hM : 1 ≤ maxc)
    (hne : normalize_text r.transcript ≠ []) :
    chunk_text r maxc 0 ≠ [] ∧
    ((chunk_text r maxc 0).head?).map (fun cr => cr.char_start) = some 0 ∧
    ((chunk_text r maxc 0).getLast?).map (fun cr => cr.char_end) =
      some (normalize_text r.transcript).length ∧
    List.Chain' (fun a b => a.char_end ≤ b.char_start) (chunk_text r maxc 0) ∧
    (∀ cr ∈ chunk_text r maxc 0, cr.char_start < cr.char_end) ∧
    (∀ p : Nat, p < (normalize_text r.transcript).length →
      (∀ cr ∈ chunk_text r maxc 0, p < cr.char_start ∨ cr.char_end ≤ p) →
      isPySpace ((normalize_text r.transcript).getD p ' ') = true) := by
  obtain ⟨n, hn⟩ : ∃ x, normalize_text r.transcript = x := ⟨_, rfl⟩
  have hct : chunk_text r maxc 0 = chunk_text_from_normalized r n maxc 0 := by
    rw [chunk_text, hn]
  obtain ⟨chunks, hch⟩ : ∃ x, chunk_text_from_normalized r n maxc 0 = x := ⟨_, rfl⟩
  rw [hn] at hne
  rw [hn, hct, hch]
  have hhead : ∀ c, n.head? = some c → isPySpace c = false := by
    rw [← hn]
    exact normalize_text_head_not _
  have hlast : ∀ c, n.getLast? = some c → isPySpace c = false := by
    rw [← hn]
    exact normalize_text_last_not _
  have hW : WCover n 0 n.length (build_base_spans n maxc) :=
    build_base_spans_wcover n maxc hM hne hhead hlast
  have hid : apply_overlap (build_base_spans n maxc) 0 = build_base_spans n maxc := by
    simp [apply_overlap]
  have hmap : chunks.map (fun cr => (cr.char_start, cr.char_end)) =
      build_base_spans n maxc := by
    rw [← hch, chunk_spans_map r n maxc 0 hne, hid]
  have hchne : chunks ≠ [] := by
    intro h
    rw [h] at hmap
    exact hW.ne_nil hmap.symm
  have hfst : (fun cr : ChunkRecord => cr.char_start) =
      Prod.fst ∘ (fun cr : ChunkRecord => (cr.char_start, cr.char_end)) := rfl
  have hsnd : (fun cr : ChunkRecord => cr.char_end) =
      Prod.snd ∘ (fun cr : ChunkRecord => (cr.char_start, cr.char_end)) := rfl
  refine ⟨hchne, ?_, ?_, ?_, ?_, ?_⟩
  · have hh := hW.head_fst
    rw [← hmap, List.head?_map, Option.map_map] at hh
    rw [hfst]
    exact hh
  · have hh := hW.last_snd
    rw [← hmap, List.getLast?_map, Option.map_map] at hh
    rw [hsnd]
    exact hh
  · have hchain := hW.chain
    rw [← hmap] at hchain
    exact chunks_chain_of_spans _ hchain
  · intro cr hcr
    have hmem : (cr.char_start, cr.char_end) ∈ build_base_spans n maxc := by
      rw [← hmap]
      exact List.mem_map.mpr ⟨cr, hcr, rfl⟩
    exact hW.mem_pos (cr.char_start, cr.char_end) hmem
  · intro p hp hout
    refine hW.uncovered_ws p (Nat.zero_le _) hp ?_
    intro sp hsp
    rw [← hmap] at hsp
    rcases List.mem_map.mp hsp with ⟨cr, hcr, heq⟩
    subst heq
    exact hout cr hcr

/-- Witness for the amended C1 at a concrete input: a two-paragraph
transcript with a budget of three produces a non-empty chunk list whose
first span starts at zero. -/
theorem chunk_spans_cover_with_ws_gaps_witness :
    chunk_text ⟨['k'], [], [], 0, ['a', 'b', '\n', '\n', 'c', 'd']⟩ 3 0 ≠ [] ∧
    ((chunk_text ⟨['k'], [], [], 0, ['a', 'b', '\n', '\n', 'c', 'd']⟩ 3 0).head?).map
      (fun cr => cr.char_start) = some 0 := by
  have h := chunk_spans_cover_with_ws_gaps ⟨['k'], [], [], 0, ['a', 'b', '\n', '\n', 'c', 'd']⟩
    3 (by decide) (by decide)
  exact ⟨h.1, h.2.1⟩

/-! ### C3: overlap monotonicity -/

/-- Walking the overlap adjustment along chained spans: each adjusted start
stays at or before the previous end, and within the overlap of it. -/
theorem overlapLoop_chain_aux (k : Nat) (hk : 1 ≤ k) :
    ∀ (rest : List (Nat × Nat)) (s0 e0 : Nat),
    List.Chain' (fun x y => x.2 ≤ y.1) ((s0, e0) :: rest) →
    List.Chain' (fun a b => b.1 ≤ a.2 ∧ a.2 ≤ b.1 + k) ((s0, e0) :: overlapLoop k e0 rest) := by
  intro rest
  induction rest with
  | nil => intro s0 e0 _; simp [overlapLoop]
  | cons hd tl ih =>
    intro s0 e0 hch
    obtain ⟨s1, e1⟩ := hd
    rw [List.chain'_cons] at hch
    obtain ⟨h01, hch2⟩ := hch
    simp only [overlapLoop]
    rw [List.chain'_cons]
    constructor
    · constructor
      · show min (e0 - k) s1 ≤ e0
        omega
      · show e0 ≤ min (e0 - k) s1 + k
        omega
    · refine ih (min (e0 - k) s1) e1 ?_
      cases tl with
      | nil => simp
      | cons hd2 tl2 =>
        rw [List.chain'_cons] at hch2 ⊢
        exact hch2

/-- On a chained span list (as the base spans are), the overlap applier
produces spans whose starts sit at most the overlap before, and never
after, the previous span's end. -/
theorem apply_overlap_chain (spans : List (Nat × Nat)) (k : Nat) (hk : 1 ≤ k)
    (hch : List.Chain' (fun x y => x.2 ≤ y.1) spans) :
    List.Chain' (fun a b => b.1 ≤ a.2 ∧ a.2 ≤ b.1 + k) (apply_overlap spans k) := by
  cases spans with
  | nil => simp [apply_overlap]
  | cons hd tl =>
    obtain ⟨s0, e0⟩ := hd
    have hk0 : ¬ (k = 0) := by omega
    have hform : apply_overlap ((s0, e0) :: tl) k = (s0, e0) :: overlapLoop k e0 tl := by
      simp [apply_overlap, hk0]
    rw [hform]
    exact overlapLoop_chain_aux k hk tl s0 e0 hch

/-- Transfer of the overlap-chain relation from projected spans back to the
chunk records. -/
theorem chunks_chain_of_overlap (k : Nat) (chunks : List ChunkRecord)
    (hsp : List.Chain' (fun x y : Nat × Nat => y.1 ≤ x.2 ∧ x.2 ≤ y.1 + k)
      (chunks.map (fun cr => (cr.char_start, cr.char_end)))) :
    List.Chain' (fun a b : ChunkRecord => b.char_start ≤ a.char_end ∧
      a.char_end ≤ b.char_start + k) chunks :=
  (List.chain'_map (fun cr : ChunkRecord => (cr.char_start, cr.char_end))).mp hsp

/-- A chained relation holds between the entries at consecutive
positions. -/
theorem chain_getElem_consec {α : Type} {R : α → α → Prop} : ∀ (l : List α),
    List.Chain' R l → ∀ (i : Nat) (a b : α), l[i]? = some a → l[i + 1]? = some b → R a b := by
  intro l
  induction l with
  | nil => intro _ i a b h1 _; simp at h1
  | cons hd tl ih =>
    intro hch i a b h1 h2
    cases tl with
    | nil =>
      cases i with
      | zero => simp at h2
      | succ j => simp at h1
    | cons hd2 tl2 =>
      rw [List.chain'_cons] at hch
      cases i with
      | zero =>
        simp at h1 h2
        subst h1
        subst h2
        exact hch.1
      | succ j =>
        simp only [List.getElem?_cons_succ] at h1 h2
        refine ih hch.2 j a b h1 ?_
        rw [List.getElem?_cons_succ]
        exact h2

/-- C3.  For a positive budget and a positive overlap, consecutive chunks
satisfy the overlap monotonicity bounds: each later chunk's start is at
most the previous chunk's end, and at least that end minus the overlap
(stated additively over the naturals). -/
theorem overlap_monotonicity (r : MeetingRecord) (maxc k : Nat) (hM : 1 ≤ maxc)
    (hK : 1 ≤ k) :
    ∀ (i : Nat) (a b : ChunkRecord), (chunk_text r maxc k)[i]? = some a →
      (chunk_text r maxc k)[i + 1]? = some b →
      b.char_start ≤ a.char_end ∧ a.char_end ≤ b.char_start + k := by
  obtain ⟨n, hn⟩ : ∃ x, normalize_text r.transcript = x := ⟨_, rfl⟩
  have hct : chunk_text r maxc k = chunk_text_from_normalized r n maxc k := by
    rw [chunk_text, hn]
  obtain ⟨chunks, hch⟩ : ∃ x, chunk_text_from_normalized r n maxc k = x := ⟨_, rfl⟩
  rw [hct, hch]
  by_cases hne : n = []
  · have hnil : chunks = [] := by
      rw [← hch, hne]
      rfl
    subst hnil
    intro i a b h1 _
    simp at h1
  · have hhead : ∀ c, n.head? = some c → isPySpace c = false := by
      rw [← hn]
      exact normalize_text_head_not _
    have hlast : ∀ c, n.getLast? = some c → isPySpace c = false := by
      rw [← hn]
      exact normalize_text_last_not _
    have hW : WCover n 0 n.length (build_base_spans n maxc) :=
      build_base_spans_wcover n maxc hM hne hhead hlast
    have hchain := apply_overlap_chain (build_base_spans n maxc) k hK hW.chain
    have hmap : chunks.map (fun cr => (cr.char_start, cr.char_end)) =
        apply_overlap (build_base_spans n maxc) k := by
      rw [← hch, chunk_spans_map r n maxc k hne]
    rw [← hmap] at hchain
    exact chain_getElem_consec chunks (chunks_chain_of_overlap k chunks hchain)

/-- Witness for C3 at a concrete input: two short paragraphs, budget two
and overlap one, looking at the first two chunks. -/
theorem overlap_monotonicity_witness :
    ((chunk_text ⟨['k'], [], [], 0, ['a', 'a', '\n', '\n', 'b', 'b']⟩ 2 1).get
        ⟨1, by decide⟩).char_start ≤
      ((chunk_text ⟨['k'], [], [], 0, ['a', 'a', '\n', '\n', 'b', 'b']⟩ 2 1).get
        ⟨0, by decide⟩).char_end ∧
    ((chunk_text ⟨['k'], [], [], 0, ['a', 'a', '\n', '\n', 'b', 'b']⟩ 2 1).get
        ⟨0, by decide⟩).char_end ≤
      ((chunk_text ⟨['k'], [], [], 0, ['a', 'a', '\n', '\n', 'b', 'b']⟩ 2 1).get
        ⟨1, by decide⟩).char_start + 1 :=
  overlap_monotonicity ⟨['k'], [], [], 0, ['a', 'a', '\n', '\n', 'b', 'b']⟩ 2 1
    (by decide) (by decide) 0
    ((chunk_text ⟨['k'], [], [], 0, ['a', 'a', '\n', '\n', 'b', 'b']⟩ 2 1).get ⟨0, by decide⟩)
    ((chunk_text ⟨['k'], [], [], 0, ['a', 'a', '\n', '\n', 'b', 'b']⟩ 2 1).get ⟨1, by decide⟩)
    (by decide) (by decide)

/-! ### C10: no chunk has an empty span -/

/-- The overlap walk keeps every span non-empty. -/
theorem overlapLoop_pos (k : Nat) : ∀ (l : List (Nat × Nat)) (pe : Nat),
    (∀ sp ∈ l, sp.1 < sp.2) → ∀ sp ∈ overlapLoop k pe l, sp.1 < sp.2 := by
  intro l
  induction l with
  | nil => intro pe _ sp hsp; simp [overlapLoop] at hsp
  | cons hd tl ih =>
    intro pe hl sp hsp
    obtain ⟨s, e⟩ := hd
    simp only [overlapLoop] at hsp
    rcases List.mem_cons.mp hsp with h | h
    · subst h
      have := hl (s, e) (List.mem_cons_self _ _)
      simp only at this ⊢
      omega
    · exact ih e (fun q hq => hl q (List.mem_cons_of_mem _ hq)) sp h

/-- The overlap applier keeps every span non-empty. -/
theorem apply_overlap_pos (spans : List (Nat × Nat)) (k : Nat)
    (h : ∀ sp ∈ spans, sp.1 < sp.2) : ∀ sp ∈ apply_overlap spans k, sp.1 < sp.2 := by
  by_cases hk : spans = [] ∨ k = 0
  · have hident : apply_overlap spans k = spans := by simp [apply_overlap, hk]
    rw [hident]
    exact h
  · push_neg at hk
    obtain ⟨hsp0, hk0⟩ := hk
    cases spans with
    | nil => exact absurd rfl hsp0
    | cons hd tl =>
      obtain ⟨s, e⟩ := hd
      have hform : apply_overlap ((s, e) :: tl) k = (s, e) :: overlapLoop k e tl := by
        simp [apply_overlap, hk0]
      rw [hform]
      intro sp hsp
      rcases List.mem_cons.mp hsp with h2 | h2
      · subst h2
        exact h (s, e) (List.mem_cons_self _ _)
      · exact overlapLoop_pos k tl e (fun q hq => h q (List.mem_cons_of_mem _ hq)) sp h2

/-- C10.  Every chunk record emitted by the chunker has a non-empty span:
its start offset is strictly below its end offset, for every transcript,
every positive budget and every overlap. -/
theorem chunks_nonempty_spans (r : MeetingRecord) (maxc k : Nat) (hM : 1 ≤ maxc) :
    ∀ cr ∈ chunk_text r maxc k, cr.char_start < cr.char_end := by
  obtain ⟨n, hn⟩ : ∃ x, normalize_text r.transcript = x := ⟨_, rfl⟩
  have hct : chunk_text r maxc k = chunk_text_from_normalized r n maxc k := by
    rw [chunk_text, hn]
  obtain ⟨chunks, hch⟩ : ∃ x, chunk_text_from_normalized r n maxc k = x := ⟨_, rfl⟩
  rw [hct, hch]
  by_cases hne : n = []
  · have hnil : chunks = [] := by
      rw [← hch, hne]
      rfl
    rw [hnil]
    simp
  · have hhead : ∀ c, n.head? = some c → isPySpace c = false := by
      rw [← hn]
      exact normalize_text_head_not _
    have hlast : ∀ c, n.getLast? = some c → isPySpace c = false := by
      rw [← hn]
      exact normalize_text_last_not _
    have hW : WCover n 0 n.length (build_base_spans n maxc) :=
      build_base_spans_wcover n maxc hM hne hhead hlast
    have hmap : chunks.map (fun cr => (cr.char_start, cr.char_end)) =
        apply_overlap (build_base_spans n maxc) k := by
      rw [← hch, chunk_spans_map r n maxc k hne]
    intro cr hcr
    have hmem : (cr.char_start, cr.char_end) ∈ apply_overlap (build_base_spans n maxc) k := by
      rw [← hmap]
      exact List.mem_map.mpr ⟨cr, hcr, rfl⟩
    exact apply_overlap_pos _ k hW.mem_pos (cr.char_start, cr.char_end) hmem

/-- Witness for C10 at a concrete input: the first chunk of a two-paragraph
transcript has a non-empty span. -/
theorem chunks_nonempty_spans_witness :
    ((chunk_text ⟨['k'], [], [], 0, ['a', 'a', '\n', '\n', 'b', 'b']⟩ 2 0).head
        (by decide)).char_start <
      ((chunk_text ⟨['k'], [], [], 0, ['a', 'a', '\n', '\n', 'b', 'b']⟩ 2 0).head
        (by decide)).char_end :=
  chunks_nonempty_spans ⟨['k'], [], [], 0, ['a', 'a', '\n', '\n', 'b', 'b']⟩ 2 0 (by decide) _
    (List.head_mem _)

/-! ### C9: an empty or all-whitespace transcript yields no chunks -/

/-- Replacement with an all-whitespace replacement string keeps an
all-whitespace text all-whitespace. -/
theorem replaceGo_allws (old new : List Char) (hnew : ∀ c ∈ new, isPySpace c = true) :
    ∀ (fuel : Nat) (l : List Char), (∀ c ∈ l, isPySpace c = true) →
    ∀ c ∈ replaceGo old new fuel l, isPySpace c = true := by
  intro fuel
  induction fuel with
  | zero =>
    intro l hl c hc
    simp only [replaceGo] at hc
    exact hl c hc
  | succ f ih =>
    intro l hl c hc
    cases l with
    | nil => simp [replaceGo] at hc
    | cons d rest =>
      simp only [replaceGo] at hc
      split at hc
      · rcases List.mem_append.mp hc with h | h
        · exact hnew c h
        · refine ih (rest.drop (old.length - 1)) ?_ c h
          intro x hx
          exact hl x (List.mem_cons_of_mem _ (List.mem_of_mem_drop hx))
      · rcases List.mem_cons.mp hc with h | h
        · subst h
          exact hl c (List.mem_cons_self _ _)
        · exact ih rest (fun x hx => hl x (List.mem_cons_of_mem _ hx)) c h

/-- The newline-run collapse keeps an all-whitespace text
all-whitespace. -/
theorem collapseNlGo_allws : ∀ (fuel : Nat) (l : List Char),
    (∀ c ∈ l, isPySpace c = true) → ∀ c ∈ collapseNlGo fuel l, isPySpace c = true := by
  intro fuel
  induction fuel with
  | zero =>
    intro l hl c hc
    simp only [collapseNlGo] at hc
    exact hl c hc
  | succ f ih =>
    intro l hl c hc
    cases l with
    | nil => simp [collapseNlGo] at hc
    | cons d rest =>
      simp only [collapseNlGo] at hc
      split at hc
      · rcases List.mem_append.mp hc with h | h
        · have hcnl : c = '\n' := by
            split at h
            · rcases List.mem_cons.mp h with h2 | h2
              · exact h2
              · simpa using h2
            · exact List.eq_of_mem_replicate h
          subst hcnl
          decide
        · refine ih (rest.dropWhile (fun x => x = '\n')) ?_ c h
          intro x hx
          exact hl x (List.mem_cons_of_mem _ ((List.dropWhile_sublist _).subset hx))
      · rcases List.mem_cons.mp hc with h | h
        · subst h
          exact hl c (List.mem_cons_self _ _)
        · exact ih rest (fun x hx => hl x (List.mem_cons_of_mem _ hx)) c h

/-- Stripping an all-whitespace text leaves nothing. -/
theorem stripWs_nil_of_allws (l : List Char) (h : ∀ c ∈ l, isPySpace c = true) :
    stripWs l = [] := by
  have h1 : l.dropWhile (fun c => isPySpace c) = [] :=
    List.dropWhile_eq_nil_iff.mpr (fun x hx => h x hx)
  simp [stripWs, h1]

/-- Replacement with an all-whitespace replacement keeps an all-whitespace
text all-whitespace. -/
theorem replaceList_allws (old new l : List Char) (hnew : ∀ c ∈ new, isPySpace c = true)
    (hl : ∀ c ∈ l, isPySpace c = true) : ∀ c ∈ replaceList old new l, isPySpace c = true :=
  replaceGo_allws old new hnew l.length l hl

/-- Collapsing newline runs keeps an all-whitespace text all-whitespace. -/
theorem collapseNl_allws (l : List Char) (hl : ∀ c ∈ l, isPySpace c = true) :
    ∀ c ∈ collapseNl l, isPySpace c = true :=
  collapseNlGo_allws l.length l hl

/-- Normalizing an all-whitespace (or empty) transcript yields the empty
string: every replacement inserts only whitespace, collapsing runs keeps
whitespace, and the final strip removes everything. -/
theorem normalize_text_allws (s : List Char) (h : ∀ c ∈ s, isPySpace c = true) :
    normalize_text s = [] := by
  have h1 : ∀ c ∈ s.dropWhile (fun c => c = '\uFEFF'), isPySpace c = true :=
    fun c hc => h c ((List.dropWhile_sublist _).subset hc)
  have hnl : ∀ c ∈ ['\n'], isPySpace c = true := by decide
  have hsp : ∀ c ∈ [' '], isPySpace c = true := by decide
  simp only [normalize_text]
  exact stripWs_nil_of_allws _ (collapseNl_allws _ (replaceList_allws _ _ _ hsp
    (replaceList_allws _ _ _ hnl (replaceList_allws _ _ _ hnl (replaceList_allws _ _ _ hnl
      (replaceList_allws _ _ _ hnl (replaceList_allws _ _ _ hnl h1)))))))

/-- C9.  A transcript that is empty or holds only whitespace produces no
chunks (and, the embedding being total, no error), for every positive
budget and every overlap. -/
theorem empty_transcript_yields_no_chunks (r : MeetingRecord) (maxc k : Nat)
    (hM : 1 ≤ maxc) (h : ∀ c ∈ r.transcript, isPySpace c = true) :
    chunk_text r maxc k = [] := by
  have hnorm : normalize_text r.transcript = [] := normalize_text_allws _ h
  rw [chunk_text, hnorm]
  rfl

/-- Witness for C9 at a concrete input: a transcript of spaces and
newlines yields no chunks. -/
theorem empty_transcript_yields_no_chunks_witness :
    chunk_text ⟨['k'], [], [], 0, [' ', '\n', ' ', '\n']⟩ 5 2 = [] :=
  empty_transcript_yields_no_chunks ⟨['k'], [], [], 0, [' ', '\n', ' ', '\n']⟩ 5 2
    (by decide) (by decide)

/-! ### C8: the fixed-width fallback -/

/-- C8.  When the transcript normalizes to a single five-hundred-character
paragraph (one paragraph block, no sentence-end positions), a budget of one
hundred with zero overlap yields exactly five chunks of one hundred
characters each, contiguous and in order. -/
theorem fixed_width_fallback (r : MeetingRecord)
    (hlen : (normalize_text r.transcript).length = 500)
    (hpar : paragraph_block_spans (normalize_text r.transcript) = [(0, 500)])
    (hsent : sentence_end_positions (normalize_text r.transcript) = []) :
    (chunk_text r 100 0).map (fun cr => (cr.char_start, cr.char_end)) =
      [(0, 100), (100, 200), (200, 300), (300, 400), (400, 500)] ∧
    ∀ cr ∈ chunk_text r 100 0, cr.text.length = 100 := by
  obtain ⟨n, hn⟩ : ∃ x, normalize_text r.transcript = x := ⟨_, rfl⟩
  rw [hn] at hlen hpar hsent
  have hct : chunk_text r 100 0 = chunk_text_from_normalized r n 100 0 := by
    rw [chunk_text, hn]
  obtain ⟨chunks, hchq⟩ : ∃ x, chunk_text_from_normalized r n 100 0 = x := ⟨_, rfl⟩
  rw [hct, hchq]
  have hne : n ≠ [] := by
    intro hx
    rw [hx] at hlen
    simp at hlen
  have hslice : sliceL n 0 500 = n := by
    have hle : n.length ≤ 500 := by omega
    simp [sliceL]
    exact hle
  have hbase : build_base_spans n 100 =
      [(0, 100), (100, 200), (200, 300), (300, 400), (400, 500)] := by
    rw [build_base_spans, hpar]
    simp only [bbsLoop]
    rw [if_neg (by omega), hslice]
    simp only [split_block_into_spans, hlen, hsent]
    decide
  have hid : apply_overlap (build_base_spans n 100) 0 = build_base_spans n 100 := by
    simp [apply_overlap]
  have hmap : chunks.map (fun cr => (cr.char_start, cr.char_end)) =
      [(0, 100), (100, 200), (200, 300), (300, 400), (400, 500)] := by
    rw [← hchq, chunk_spans_map r n 100 0 hne, hid, hbase]
  refine ⟨hmap, ?_⟩
  intro cr hcr
  have htext : cr.text = sliceL n cr.char_start cr.char_end := by
    refine chunk_mem_text r n 100 0 cr ?_
    rw [hchq]
    exact hcr
  have hmem : (cr.char_start, cr.char_end) ∈
      [((0 : Nat), (100 : Nat)), (100, 200), (200, 300), (300, 400), (400, 500)] := by
    rw [← hmap]
    exact List.mem_map_of_mem _ hcr
  simp only [List.mem_cons, List.not_mem_nil, or_false, Prod.mk.injEq] at hmem
  rcases hmem with h | h | h | h | h <;> obtain ⟨h1, h2⟩ := h <;>
    rw [htext, h1, h2, sliceL_length n _ _ (by omega)]

/-- Witness for C8 at a concrete input: five hundred copies of one letter
produce the five fixed-width spans. -/
theorem fixed_width_fallback_witness :
    (chunk_text ⟨['k'], [], [], 0, List.replicate 500 'a'⟩ 100 0).map
      (fun cr => (cr.char_start, cr.char_end)) =
      [(0, 100), (100, 200), (200, 300), (300, 400), (400, 500)] :=
  (fixed_width_fallback ⟨['k'], [], [], 0, List.replicate 500 'a'⟩ (by decide) (by decide)
    (by decide)).1

end Chunking
